import Mathlib

/-!
Shallow embedding of `solaluset/python-version-matrix` (src/main.py and
src/matrix.py) and verification of its specification claims.

The Python code relies on `packaging.version.Version`; we embed the
fragment of its semantics exercised by this program: a dotted numeric
release with an optional pre-release segment, compared by the key
(release with trailing zeros stripped, pre-release marker where a final
release sorts above any pre-release).
-/

namespace PVM

/-- Embeds the comparison-relevant state of `packaging.version.Version`:
the numeric release components and the optional pre-release pair
(phase, number) with phases a=0, b=1, c/rc=2. -/
structure Version where
  release : List Nat
  pre : Option (Nat × Nat)
deriving DecidableEq, Repr

namespace Version

/-- `packaging` strips trailing zeros from the release tuple before
comparing, so `3.12.4` and `3.12.4.0` compare equal. -/
def stripZeros (l : List Nat) : List Nat :=
  (l.reverse.dropWhile (· == 0)).reverse

/-- Python tuple comparison on int tuples: lexicographic, a strict
prefix sorts below its extensions. -/
def listLt : List Nat → List Nat → Bool
  | [], [] => false
  | [], _ :: _ => true
  | _ :: _, [] => false
  | a :: as, b :: bs => a < b || (a == b && listLt as bs)

/-- Pre-release key comparison: absence of a pre-release segment acts
as positive infinity (a final release sorts above its pre-releases). -/
def preLt : Option (Nat × Nat) → Option (Nat × Nat) → Bool
  | none, _ => false
  | some _, none => true
  | some (p, n), some (q, m) => p < q || (p == q && n < m)

/-- `Version.__lt__`: compare stripped release tuples, then pre keys. -/
def lt (a b : Version) : Bool :=
  listLt (stripZeros a.release) (stripZeros b.release) ||
    (stripZeros a.release == stripZeros b.release && preLt a.pre b.pre)

/-- `Version.is_prerelease` (the embedding carries no dev segment). -/
def isPrerelease (v : Version) : Bool :=
  v.pre.isSome

/-- `Version.major`: first release component, 0 when absent. -/
def major (v : Version) : Nat :=
  v.release.headD 0

/-- `Version.minor`: second release component, 0 when absent. -/
def minor (v : Version) : Nat :=
  v.release.getD 1 0

end Version

/-- Consume leading decimal digits, returning their value and the rest. -/
def parseNum (cs : List Char) : Option (Nat × List Char) :=
  let digits := cs.takeWhile Char.isDigit
  let rest := cs.dropWhile Char.isDigit
  if digits.isEmpty then none
  else some (digits.foldl (fun n c => n * 10 + (c.toNat - 48)) 0, rest)

/-- Parse the dotted numeric release `N(.N)*`; fuel bounds recursion. -/
def parseReleaseAux : Nat → List Char → Option (List Nat × List Char)
  | 0, _ => none
  | fuel + 1, cs =>
    match parseNum cs with
    | none => none
    | some (n, rest) =>
      match rest with
      | '.' :: more =>
        match parseReleaseAux fuel more with
        | some (ns, r) => some (n :: ns, r)
        | none => none
      | _ => some ([n], rest)

/-- Parse the optional numeric part of a pre-release tag. -/
def parsePreNum (phase : Nat) (rest : List Char) : Option (Option (Nat × Nat)) :=
  if rest.isEmpty then some (some (phase, 0))
  else
    match parseNum rest with
    | none => none
    | some (n, r) => if r.isEmpty then some (some (phase, n)) else none

/-- Parse the optional pre-release tag (`a`, `b`, `c`, `rc`). -/
def parsePreTag : List Char → Option (Option (Nat × Nat))
  | [] => some none
  | 'r' :: 'c' :: rest => parsePreNum 2 rest
  | 'a' :: rest => parsePreNum 0 rest
  | 'b' :: rest => parsePreNum 1 rest
  | 'c' :: rest => parsePreNum 2 rest
  | _ => none

/-- `str.lower` (ASCII case folding suffices for this program's inputs),
expressed over the character list so that it evaluates by reduction. -/
def lowerString (s : String) : String :=
  String.mk (s.toList.map Char.toLower)

/-- `str.endswith`, expressed over the character lists. -/
def strEndsWith (s suff : String) : Bool :=
  suff.toList.isSuffixOf s.toList

/-- `Version(s)`: parse a version string; `none` models `InvalidVersion`. -/
def parseVersion (s : String) : Option Version :=
  let cs := (lowerString s).toList
  match parseReleaseAux (cs.length + 1) cs with
  | none => none
  | some (rel, rest) =>
    match parsePreTag rest with
    | none => none
    | some pre => some ⟨rel, pre⟩

/-- One element of an upstream record's `files` array. -/
structure VFile where
  platform : String
  arch : String
deriving DecidableEq, Repr

/-- The two implementation variants (`CPythonEntry`, `PyPyEntry`). -/
inductive Impl
  | cpython
  | pypy
deriving DecidableEq, Repr

/-- A constructed release entry: its raw version string (`self._version`),
the parsed version (`self.version`) and its files list (`self.data["files"]`). -/
structure Entry where
  impl : Impl
  rawVersion : String
  version : Version
  files : List VFile
deriving DecidableEq, Repr

/-- `BaseEntry._simple_version`. -/
def simpleVersion (v : Version) (sfx : String) : String :=
  let s := toString v.major ++ "." ++ toString v.minor ++ sfx
  if v.isPrerelease then s ++ "-dev" else s

/-- `CPythonEntry.string` / `PyPyEntry.string`. -/
def Entry.string (e : Entry) (sfx : String) : String :=
  match e.impl with
  | .cpython =>
    if e.version.isPrerelease then simpleVersion e.version sfx
    else e.rawVersion ++ sfx
  | .pypy => "pypy-" ++ simpleVersion e.version sfx

/-- An upstream JSON record, reduced to the fields the program reads. -/
structure RawRecord where
  version : Option String
  python_version : Option String
  files : List VFile
deriving DecidableEq, Repr

/-- Entry construction failures: a missing version field (`KeyError`)
or an unparsable version string (`InvalidVersion`). -/
inductive EntryError
  | MissingField
  | InvalidVersion
deriving DecidableEq, Repr

/-- `_extract_version`: CPython reads `version`, PyPy reads `python_version`. -/
def extractVersionField : Impl → RawRecord → Option String
  | .cpython, r => r.version
  | .pypy, r => r.python_version

/-- `BaseEntry.__init__` for the given variant. -/
def mkEntry (impl : Impl) (r : RawRecord) : Except EntryError Entry :=
  match extractVersionField impl r with
  | none => .error .MissingField
  | some raw =>
    match parseVersion raw with
    | none => .error .InvalidVersion
    | some v => .ok { impl := impl, rawVersion := raw, version := v, files := r.files }

/-- `OperatingSystem` enumeration. -/
inductive OperatingSystem
  | LINUX
  | WINDOWS
  | MACOS
deriving DecidableEq, Repr

/-- `Architecture` enumeration. -/
inductive Architecture
  | X86
  | X64
  | ARM64
deriving DecidableEq, Repr

/-- `KNOWN_OS_NAMES` (the inverted dict, as name → tag pairs). -/
def KNOWN_OS_NAMES : List (String × OperatingSystem) :=
  [("linux", .LINUX),
   ("windows", .WINDOWS), ("win32", .WINDOWS), ("win64", .WINDOWS),
   ("macos", .MACOS), ("darwin", .MACOS)]

/-- `KNOWN_ARCH_NAMES` (the inverted dict, as name → tag pairs). -/
def KNOWN_ARCH_NAMES : List (String × Architecture) :=
  [("x86", .X86), ("i686", .X86),
   ("x64", .X64),
   ("aarch64", .ARM64), ("arm64", .ARM64)]

def FREETHREADED_SUFFIX : String := "-freethreaded"

/-- `str.removesuffix`. -/
def removeMarker (s suff : String) : String :=
  if strEndsWith s suff then
    String.mk (s.toList.take (s.toList.length - suff.toList.length))
  else s

/-- `_get_os`. -/
def getOs (name : String) : Option OperatingSystem :=
  KNOWN_OS_NAMES.lookup (lowerString name)

/-- `_get_arch`. -/
def getArch (name : String) : Option Architecture :=
  KNOWN_ARCH_NAMES.lookup (removeMarker (lowerString name) FREETHREADED_SUFFIX)

/-- The `EntryProcessor` dataclass. -/
structure EntryProcessor where
  min_version : Version
  max_version : Option Version
  include_pre_releases : Bool
  include_freethreaded : Bool
  target_os : Option OperatingSystem
  target_arch : Option Architecture
deriving DecidableEq, Repr

/-- The OS filter step of `process` (applied only when a target OS is set). -/
def filterByOs (tos : Option OperatingSystem) (files : List VFile) : List VFile :=
  match tos with
  | none => files
  | some os => files.filter (fun f => getOs f.platform == some os)

/-- The arch filter step of `process` (applied only when a target arch is set). -/
def filterByArch (ta : Option Architecture) (files : List VFile) : List VFile :=
  match ta with
  | none => files
  | some a => files.filter (fun f => getArch f.arch == some a)

/-- The entry's file list after both platform filters. -/
def filteredFiles (p : EntryProcessor) (e : Entry) : List VFile :=
  filterByArch p.target_arch (filterByOs p.target_os e.files)

/-- `files_freethreaded`: files whose raw arch name ends with the marker. -/
def freethreadedFiles (files : List VFile) : List VFile :=
  files.filter (fun f => strEndsWith f.arch FREETHREADED_SUFFIX)

/-- The `versions` defaultdict: insertion-ordered groups keyed by
(major, minor, suffix). -/
abbrev Groups := List ((Nat × Nat × String) × List Entry)

/-- Append an entry to its group, creating the group at the end when new
(`defaultdict` + `list.append` semantics). -/
def registerGroup (gs : Groups) (k : Nat × Nat × String) (e : Entry) : Groups :=
  match gs with
  | [] => [(k, [e])]
  | (k', es) :: rest =>
    if k' = k then (k', es ++ [e]) :: rest
    else (k', es) :: registerGroup rest k e

/-- The max-version rejection test: `self.max_version and entry.version >= self.max_version`. -/
def maxRejects (p : EntryProcessor) (e : Entry) : Bool :=
  match p.max_version with
  | some mx => !Version.lt e.version mx
  | none => false

/-- The body of the `for entry in entries` loop of `EntryProcessor.process`. -/
def processEntry (p : EntryProcessor) (gs : Groups) (e : Entry) : Groups :=
  if Version.lt e.version p.min_version then gs
  else if maxRejects p e then gs
  else if !p.include_pre_releases && e.version.isPrerelease then gs
  else
    let files := filteredFiles p e
    let ft := freethreadedFiles files
    let gs1 :=
      if ft.length < files.length then
        registerGroup gs (e.version.major, e.version.minor, "") e
      else gs
    if p.include_freethreaded && !ft.isEmpty then
      registerGroup gs1 (e.version.major, e.version.minor, "t") e
    else gs1

/-- The populated `versions` mapping after the loop. -/
def buildGroups (p : EntryProcessor) (entries : List Entry) : Groups :=
  entries.foldl (processEntry p) []

/-- Python `max(releases, key=lambda r: r.version)`: keeps the running
maximum, replacing it only on strict increase, so the earliest of equal
maxima wins. -/
def pickMax (e : Entry) (rest : List Entry) : Entry :=
  rest.foldl (fun acc r => if Version.lt acc.version r.version then r else acc) e

/-- The string rendered for one populated group. -/
def groupString (g : (Nat × Nat × String) × List Entry) : String :=
  match g.2 with
  | [] => ""
  | e :: rest => (pickMax e rest).string g.1.2.2

/-- `EntryProcessor.process`. -/
def process (p : EntryProcessor) (entries : List Entry) : List String :=
  (buildGroups p entries).map groupString

/-- Look up the list of entries registered under a group key. -/
def groupEntries (gs : Groups) (k : Nat × Nat × String) : List Entry :=
  match gs with
  | [] => []
  | (k2, es) :: rest => if k2 = k then es else groupEntries rest k

/-- `KNOWN_IMPLEMENTATIONS`, reduced to the implementation tag (the URL
component only feeds the external fetch). -/
def KNOWN_IMPLEMENTATIONS : List (String × Impl) :=
  [("cpython", Impl.cpython), ("pypy", Impl.pypy)]

/-- The per-implementation loop of `fetch_versions`. `entriesFor`
abstracts the external collaborator: the feed fetch
`requests.get(url).json()` together with the wrapping
`[klass(e) for e in ...]` for the implementation's entry class (errors of
that wrapping propagate from the collaborator and are outside this model).
The resolution of an absent ("auto") minimum version happens before the
loop and is likewise external. -/
def fetchVersionsGo (proc : EntryProcessor) (entriesFor : String → List Entry)
    (acc : List String) : List String → Except String (List String)
  | [] => .ok acc
  | impl :: rest =>
    match KNOWN_IMPLEMENTATIONS.lookup impl with
    | none => .error ("unsupported implementation: " ++ impl)
    | some _ => fetchVersionsGo proc entriesFor (acc ++ process proc (entriesFor impl)) rest

/-- `fetch_versions`, for an already-resolved minimum version. -/
def fetchVersions (proc : EntryProcessor) (implementations : List String)
    (entriesFor : String → List Entry) : Except String (List String) :=
  fetchVersionsGo proc entriesFor [] implementations

/-- matrix.py: `all_versions`, the union of every runner's version list
(a Python set, embedded as deduplication of the concatenation). -/
def allVersions (runners : List (String × List String)) : List String :=
  (runners.flatMap Prod.snd).dedup

/-- matrix.py: the `exclude` list — for each version of the union, every
runner whose own list does not contain it. -/
def matrixExclude (runners : List (String × List String)) : List (String × String) :=
  (allVersions runners).flatMap fun v =>
    runners.filterMap fun rv => if rv.2.contains v then none else some (rv.1, v)

/-! Concrete values used by the scenario claims. -/

/-- Constraints: min 3.0, no max, no pre-releases, free-threaded
included, no platform targets. -/
def pFT : EntryProcessor := ⟨⟨[3, 0], none⟩, none, false, true, none, none⟩

/-- CPython 3.12.4 with one standard and one free-threaded linux/x64 file. -/
def eFT : Entry :=
  ⟨.cpython, "3.12.4", ⟨[3, 12, 4], none⟩,
   [⟨"linux", "x64"⟩, ⟨"linux", "x64-freethreaded"⟩]⟩

/-- Upstream record with version `3.13.0rc1` and one linux/x64 file. -/
def rc1Record : RawRecord := ⟨some "3.13.0rc1", none, [⟨"linux", "x64"⟩]⟩

/-- The entry `CPythonEntry` constructs from `rc1Record`. -/
def rc1Entry : Entry :=
  ⟨.cpython, "3.13.0rc1", ⟨[3, 13, 0], some (2, 1)⟩, [⟨"linux", "x64"⟩]⟩

/-- Entry with raw version `3.12.4`. -/
def eTieA : Entry := ⟨.cpython, "3.12.4", ⟨[3, 12, 4], none⟩, [⟨"linux", "x64"⟩]⟩

/-- Entry with raw version `3.12.4.0`, whose parsed version compares
equal to that of `eTieA`. -/
def eTieB : Entry := ⟨.cpython, "3.12.4.0", ⟨[3, 12, 4, 0], none⟩, [⟨"linux", "x64"⟩]⟩

/-- Constraints: min 3.0, everything else off. -/
def pPlain : EntryProcessor := ⟨⟨[3, 0], none⟩, none, false, false, none, none⟩

/-- Two runners with overlapping version lists, for the matrix facility. -/
def runnersW : List (String × List String) :=
  [("ubuntu", ["3.9", "3.10"]), ("windows", ["3.9"])]

/-- Constraints with a Windows target OS. -/
def pWin : EntryProcessor := ⟨⟨[3, 0], none⟩, none, false, false, some .WINDOWS, none⟩

/-- A file whose platform name is not in the known OS name sets. -/
def fSol : VFile := ⟨"solaris", "x64"⟩

/-! ### Order lemmas for the version comparison -/

theorem listLt_irrefl (l : List Nat) : Version.listLt l l = false := by
  induction l with
  | nil => rfl
  | cons a as ih => simp [Version.listLt, ih]

theorem listLt_trans {a b c : List Nat} (h1 : Version.listLt a b = true)
    (h2 : Version.listLt b c = true) : Version.listLt a c = true := by
  induction a generalizing b c with
  | nil =>
    cases b with
    | nil => simp [Version.listLt] at h1
    | cons y ys =>
      cases c with
      | nil => simp [Version.listLt] at h2
      | cons z zs => simp [Version.listLt]
  | cons x xs ih =>
    cases b with
    | nil => simp [Version.listLt] at h1
    | cons y ys =>
      cases c with
      | nil => simp [Version.listLt] at h2
      | cons z zs =>
        simp only [Version.listLt, Bool.or_eq_true, Bool.and_eq_true,
          decide_eq_true_eq, beq_iff_eq] at h1 h2 ⊢
        rcases h1 with h1 | ⟨h1e, h1l⟩ <;> rcases h2 with h2 | ⟨h2e, h2l⟩
        · exact Or.inl (by omega)
        · exact Or.inl (by omega)
        · exact Or.inl (by omega)
        · exact Or.inr ⟨by omega, ih h1l h2l⟩

theorem preLt_irrefl (p : Option (Nat × Nat)) : Version.preLt p p = false := by
  cases p with
  | none => rfl
  | some q =>
    obtain ⟨a, b⟩ := q
    simp [Version.preLt]

theorem preLt_trans {a b c : Option (Nat × Nat)} (h1 : Version.preLt a b = true)
    (h2 : Version.preLt b c = true) : Version.preLt a c = true := by
  match a, b, c with
  | none, _, _ => simp [Version.preLt] at h1
  | some _, none, _ => simp [Version.preLt] at h2
  | some _, some _, none => rfl
  | some (p, n), some (q, m), some (r, k) =>
    simp only [Version.preLt, Bool.or_eq_true, Bool.and_eq_true,
      decide_eq_true_eq, beq_iff_eq] at h1 h2 ⊢
    omega

theorem Version.lt_irrefl (v : Version) : Version.lt v v = false := by
  simp [Version.lt, listLt_irrefl, preLt_irrefl]

theorem Version.lt_trans {a b c : Version} (h1 : Version.lt a b = true)
    (h2 : Version.lt b c = true) : Version.lt a c = true := by
  simp only [Version.lt, Bool.or_eq_true, Bool.and_eq_true, beq_iff_eq] at h1 h2 ⊢
  rcases h1 with h1 | ⟨h1e, h1p⟩ <;> rcases h2 with h2 | ⟨h2e, h2p⟩
  · exact Or.inl (listLt_trans h1 h2)
  · exact Or.inl (h2e ▸ h1)
  · exact Or.inl (by rw [h1e]; exact h2)
  · exact Or.inr ⟨h1e.trans h2e, preLt_trans h1p h2p⟩

/-! ### Group registration lemmas -/

theorem groupEntries_registerGroup_self (gs : Groups) (k : Nat × Nat × String) (e : Entry) :
    groupEntries (registerGroup gs k e) k = groupEntries gs k ++ [e] := by
  induction gs with
  | nil => simp [registerGroup, groupEntries]
  | cons g rest ih =>
    obtain ⟨k2, es⟩ := g
    by_cases h : k2 = k
    · subst h
      simp [registerGroup, groupEntries]
    · simp [registerGroup, groupEntries, h, ih]

theorem groupEntries_registerGroup_ne (gs : Groups) (k k2 : Nat × Nat × String) (e : Entry)
    (h : k2 ≠ k) :
    groupEntries (registerGroup gs k e) k2 = groupEntries gs k2 := by
  induction gs with
  | nil => simp [registerGroup, groupEntries, Ne.symm h]
  | cons g rest ih =>
    obtain ⟨k3, es⟩ := g
    by_cases h3 : k3 = k
    · subst h3
      have hne : k3 ≠ k2 := fun hh => h hh.symm
      simp [registerGroup, groupEntries, hne]
    · by_cases h4 : k3 = k2 <;> simp [registerGroup, groupEntries, h3, h4, ih, h]

theorem keys_registerGroup (gs : Groups) (k : Nat × Nat × String) (e : Entry) :
    (registerGroup gs k e).map Prod.fst
      = if k ∈ gs.map Prod.fst then gs.map Prod.fst else gs.map Prod.fst ++ [k] := by
  induction gs with
  | nil => simp [registerGroup]
  | cons g rest ih =>
    obtain ⟨k2, es⟩ := g
    by_cases h : k2 = k
    · subst h
      simp [registerGroup]
    · by_cases h2 : k ∈ rest.map Prod.fst <;>
        simp [registerGroup, h, Ne.symm h, h2, ih]

theorem keys_nodup_registerGroup (gs : Groups) (k : Nat × Nat × String) (e : Entry)
    (h : (gs.map Prod.fst).Nodup) : ((registerGroup gs k e).map Prod.fst).Nodup := by
  rw [keys_registerGroup]
  by_cases hm : k ∈ gs.map Prod.fst
  · simpa [hm] using h
  · simp only [hm, if_false]
    exact h.append (List.nodup_singleton k) (List.disjoint_singleton.mpr hm)

theorem values_ne_nil_registerGroup (gs : Groups) (k : Nat × Nat × String) (e : Entry)
    (h : ∀ g ∈ gs, g.2 ≠ []) : ∀ g ∈ registerGroup gs k e, g.2 ≠ [] := by
  induction gs with
  | nil =>
    intro g hg
    rw [registerGroup] at hg
    rcases List.mem_singleton.mp hg with rfl
    simp
  | cons g0 rest ih =>
    obtain ⟨k2, es⟩ := g0
    intro g hg
    rw [registerGroup] at hg
    by_cases hk : k2 = k
    · rw [if_pos hk] at hg
      rcases List.mem_cons.mp hg with rfl | hg2
      · simp
      · exact h g (List.mem_cons_of_mem _ hg2)
    · rw [if_neg hk] at hg
      rcases List.mem_cons.mp hg with rfl | hg2
      · exact h (k2, es) (List.mem_cons_self _ _)
      · exact ih (fun g2 hg2b => h g2 (List.mem_cons_of_mem _ hg2b)) g hg2

/-- Every iteration of the `process` loop leaves the mapping unchanged or
appends the entry to one or two groups. -/
theorem processEntry_shape (p : EntryProcessor) (gs : Groups) (e : Entry) :
    processEntry p gs e = gs
    ∨ (∃ k, processEntry p gs e = registerGroup gs k e)
    ∨ (∃ k1 k2, processEntry p gs e = registerGroup (registerGroup gs k1 e) k2 e) := by
  unfold processEntry
  by_cases h1 : Version.lt e.version p.min_version = true
  · simp [h1]
  · by_cases h2 : maxRejects p e = true
    · simp [h1, h2]
    · by_cases h3 : (!p.include_pre_releases && e.version.isPrerelease) = true
      · simp [h1, h2, h3]
      · by_cases h4 :
          (freethreadedFiles (filteredFiles p e)).length < (filteredFiles p e).length
        · by_cases h5 :
            (p.include_freethreaded && !(freethreadedFiles (filteredFiles p e)).isEmpty) = true
          · refine Or.inr (Or.inr ⟨(e.version.major, e.version.minor, ""),
              (e.version.major, e.version.minor, "t"), ?_⟩)
            simp [h1, h2, h3, h4, h5]
          · refine Or.inr (Or.inl ⟨(e.version.major, e.version.minor, ""), ?_⟩)
            simp [h1, h2, h3, h4, h5]
        · by_cases h5 :
            (p.include_freethreaded && !(freethreadedFiles (filteredFiles p e)).isEmpty) = true
          · refine Or.inr (Or.inl ⟨(e.version.major, e.version.minor, "t"), ?_⟩)
            simp [h1, h2, h3, h4, h5]
          · left
            simp [h1, h2, h3, h4, h5]

theorem keys_nodup_processEntry (p : EntryProcessor) (gs : Groups) (e : Entry)
    (h : (gs.map Prod.fst).Nodup) : ((processEntry p gs e).map Prod.fst).Nodup := by
  rcases processEntry_shape p gs e with heq | ⟨k, heq⟩ | ⟨k1, k2, heq⟩ <;> rw [heq]
  · exact h
  · exact keys_nodup_registerGroup _ _ _ h
  · exact keys_nodup_registerGroup _ _ _ (keys_nodup_registerGroup _ _ _ h)

theorem values_ne_nil_processEntry (p : EntryProcessor) (gs : Groups) (e : Entry)
    (h : ∀ g ∈ gs, g.2 ≠ []) : ∀ g ∈ processEntry p gs e, g.2 ≠ [] := by
  rcases processEntry_shape p gs e with heq | ⟨k, heq⟩ | ⟨k1, k2, heq⟩ <;> rw [heq]
  · exact h
  · exact values_ne_nil_registerGroup _ _ _ h
  · exact values_ne_nil_registerGroup _ _ _ (values_ne_nil_registerGroup _ _ _ h)

theorem foldl_preserve {α β : Type} {P : α → Prop} (f : α → β → α)
    (hstep : ∀ a b, P a → P (f a b)) :
    ∀ (l : List β) (init : α), P init → P (l.foldl f init) := by
  intro l
  induction l with
  | nil => exact fun init h => h
  | cons x xs ih => exact fun init h => ih _ (hstep _ _ h)

theorem buildGroups_keys_nodup (p : EntryProcessor) (entries : List Entry) :
    ((buildGroups p entries).map Prod.fst).Nodup :=
  foldl_preserve (processEntry p) (fun gs e h => keys_nodup_processEntry p gs e h)
    entries [] (by simp)

theorem buildGroups_values_ne_nil (p : EntryProcessor) (entries : List Entry) :
    ∀ g ∈ buildGroups p entries, g.2 ≠ [] :=
  foldl_preserve (processEntry p) (fun gs e h => values_ne_nil_processEntry p gs e h)
    entries [] (by simp)

/-! ### Lemmas about the maximum selection -/

theorem pickMax_cons (e r : Entry) (rest : List Entry) :
    pickMax e (r :: rest) = pickMax (if Version.lt e.version r.version then r else e) rest :=
  rfl

theorem pickMax_not_lt_base (rest : List Entry) :
    ∀ (e x : Entry), Version.lt e.version x.version = false →
      Version.lt (pickMax e rest).version x.version = false := by
  induction rest with
  | nil => exact fun e x hx => hx
  | cons r rs ih =>
    intro e x hx
    rw [pickMax_cons]
    by_cases h : Version.lt e.version r.version = true
    · rw [if_pos h]
      apply ih
      cases hrx : Version.lt r.version x.version with
      | false => rfl
      | true => exact absurd (Version.lt_trans h hrx) (by simp [hx])
    · rw [if_neg h]
      exact ih e x hx

theorem pickMax_not_lt_mem (rest : List Entry) :
    ∀ (e x : Entry), x ∈ rest →
      Version.lt (pickMax e rest).version x.version = false := by
  induction rest with
  | nil =>
    intro e x hx
    cases hx
  | cons r rs ih =>
    intro e x hx
    rw [pickMax_cons]
    rcases List.mem_cons.mp hx with rfl | hx2
    · apply pickMax_not_lt_base
      by_cases h : Version.lt e.version x.version = true
      · rw [if_pos h]
        exact Version.lt_irrefl x.version
      · rw [if_neg h]
        simpa using h
    · exact ih _ x hx2

theorem pickMax_mem (rest : List Entry) : ∀ e : Entry, pickMax e rest ∈ e :: rest := by
  induction rest with
  | nil =>
    intro e
    simp [pickMax]
  | cons r rs ih =>
    intro e
    rw [pickMax_cons]
    by_cases h : Version.lt e.version r.version = true
    · rw [if_pos h]
      have hm := ih r
      simp only [List.mem_cons] at hm ⊢
      tauto
    · rw [if_neg h]
      have hm := ih e
      simp only [List.mem_cons] at hm ⊢
      tauto

/-! ### Rejection lemmas for the per-entry filters -/

theorem processEntry_skip_min (p : EntryProcessor) (gs : Groups) (e : Entry)
    (h : Version.lt e.version p.min_version = true) : processEntry p gs e = gs := by
  simp [processEntry, h]

theorem processEntry_skip_max (p : EntryProcessor) (gs : Groups) (e : Entry)
    (h : maxRejects p e = true) : processEntry p gs e = gs := by
  by_cases h1 : Version.lt e.version p.min_version = true <;>
    simp [processEntry, h1, h]

theorem processEntry_skip_pre (p : EntryProcessor) (gs : Groups) (e : Entry)
    (h : (!p.include_pre_releases && e.version.isPrerelease) = true) :
    processEntry p gs e = gs := by
  by_cases h1 : Version.lt e.version p.min_version = true <;>
    by_cases h2 : maxRejects p e = true <;>
      simp [processEntry, h1, h2, h]

theorem foldl_processEntry_filter (p : EntryProcessor) (keep : Entry → Bool)
    (hskip : ∀ gs e, keep e = false → processEntry p gs e = gs) :
    ∀ (l : List Entry) (gs : Groups),
      (l.filter keep).foldl (processEntry p) gs = l.foldl (processEntry p) gs := by
  intro l
  induction l with
  | nil =>
    intro gs
    rfl
  | cons e es ih =>
    intro gs
    cases hk : keep e with
    | false =>
      rw [List.filter_cons_of_neg (by simp [hk]), List.foldl_cons, hskip gs e hk, ih]
    | true =>
      rw [List.filter_cons_of_pos (by simp [hk]), List.foldl_cons, List.foldl_cons, ih]

/-! ### Lemmas for the fetch loop and the matrix facility -/

theorem fetchVersionsGo_error_iff (proc : EntryProcessor) (entriesFor : String → List Entry) :
    ∀ (impls : List String) (acc : List String),
      (∃ msg, fetchVersionsGo proc entriesFor acc impls = Except.error msg)
        ↔ ∃ i ∈ impls, KNOWN_IMPLEMENTATIONS.lookup i = none := by
  intro impls
  induction impls with
  | nil =>
    intro acc
    constructor
    · rintro ⟨msg, h⟩
      rw [fetchVersionsGo] at h
      cases h
    · rintro ⟨i, hi, _⟩
      cases hi
  | cons i is ih =>
    intro acc
    cases hl : KNOWN_IMPLEMENTATIONS.lookup i with
    | none =>
      simp only [fetchVersionsGo, hl]
      constructor
      · intro
        exact ⟨i, List.mem_cons_self i is, hl⟩
      · intro
        exact ⟨_, rfl⟩
    | some kl =>
      simp only [fetchVersionsGo, hl]
      rw [ih]
      constructor
      · rintro ⟨j, hj, hjl⟩
        exact ⟨j, List.mem_cons_of_mem _ hj, hjl⟩
      · rintro ⟨j, hj, hjl⟩
        rcases List.mem_cons.mp hj with rfl | hj2
        · rw [hl] at hjl
          cases hjl
        · exact ⟨j, hj2, hjl⟩

theorem nodup_keys_unique {l : List (String × List String)}
    (h : (l.map Prod.fst).Nodup) {r : String} {a b : List String}
    (ha : (r, a) ∈ l) (hb : (r, b) ∈ l) : a = b := by
  induction l with
  | nil => cases ha
  | cons x xs ih =>
    simp only [List.map_cons, List.nodup_cons] at h
    rcases List.mem_cons.mp ha with rfl | ha2 <;>
      rcases List.mem_cons.mp hb with hb1 | hb2
    · exact ((Prod.ext_iff.mp hb1).2).symm
    · exact absurd (List.mem_map_of_mem Prod.fst hb2) (by simpa using h.1)
    · rcases hb1 with rfl
      exact absurd (List.mem_map_of_mem Prod.fst ha2) (by simpa using h.1)
    · exact ih h.2 ha2 hb2

/-! ### Claim theorems -/

/-- C1 counterexample: on the Scenario C input (entry 3.12.4 with a
standard and a free-threaded linux/x64 file, include_freethreaded on),
`process` does not produce the string `"3.12.4-freethreaded"`: the
free-threaded group's suffix in the code is `"t"`, not the
`"-freethreaded"` marker. -/
theorem c1_counterexample : "3.12.4-freethreaded" ∉ process pFT [eFT] := by
  decide

/-- C1 (amended): on the Scenario C input, `process` produces exactly the
strings `"3.12.4"` and `"3.12.4t"` — the free-threaded group's rendered
string carries `"t"` as suffix, not `"-freethreaded"`. -/
theorem c1_both_variants :
    process pFT [eFT] = ["3.12.4", "3.12.4t"]
    ∧ "3.12.4" ∈ process pFT [eFT]
    ∧ "3.12.4t" ∈ process pFT [eFT] := by
  refine ⟨rfl, ?_, ?_⟩ <;> decide

/-- C2: for an entry that passes the three version filters, one loop
iteration of `process` appends the entry to group (major, minor, "")
exactly when the free-threaded subset of its filtered files is a strict
subset of them, and to group (major, minor, "t") exactly when
include_freethreaded is set and that subset is non-empty; all other
group contents are unchanged, so an entry can land in zero, one or both
groups. -/
theorem c2_registration (p : EntryProcessor) (gs : Groups) (e : Entry)
    (h1 : Version.lt e.version p.min_version = false)
    (h2 : maxRejects p e = false)
    (h3 : (!p.include_pre_releases && e.version.isPrerelease) = false) :
    groupEntries (processEntry p gs e) (e.version.major, e.version.minor, "")
      = groupEntries gs (e.version.major, e.version.minor, "")
        ++ (if (freethreadedFiles (filteredFiles p e)).length < (filteredFiles p e).length
            then [e] else [])
    ∧ groupEntries (processEntry p gs e) (e.version.major, e.version.minor, "t")
      = groupEntries gs (e.version.major, e.version.minor, "t")
        ++ (if p.include_freethreaded && !(freethreadedFiles (filteredFiles p e)).isEmpty
            then [e] else []) := by
  have hk : ((e.version.major, e.version.minor, "") : Nat × Nat × String)
      ≠ (e.version.major, e.version.minor, "t") := by simp
  simp only [processEntry, h1, h2, h3, Bool.false_eq_true, if_false]
  have hk2 : ((e.version.major, e.version.minor, "t") : Nat × Nat × String)
      ≠ (e.version.major, e.version.minor, "") := Ne.symm hk
  by_cases h4 : (freethreadedFiles (filteredFiles p e)).length < (filteredFiles p e).length <;>
    by_cases h5 :
      (p.include_freethreaded && !(freethreadedFiles (filteredFiles p e)).isEmpty) = true <;>
    simp [h4, h5, groupEntries_registerGroup_self, groupEntries_registerGroup_ne, hk, hk2]

/-- C2 witness: the rule evaluated at the Scenario C entry with an empty
group mapping. -/
theorem c2_witness :
    groupEntries (processEntry pFT [] eFT) (eFT.version.major, eFT.version.minor, "")
      = groupEntries ([] : Groups) (eFT.version.major, eFT.version.minor, "")
        ++ (if (freethreadedFiles (filteredFiles pFT eFT)).length
              < (filteredFiles pFT eFT).length
            then [eFT] else []) :=
  (c2_registration pFT [] eFT rfl rfl rfl).1

/-- C3: group keys are pairwise distinct, `process` renders exactly one
string per populated group, and that string is the renderer of a
maximum-version entry registered to the group, called with the group's
suffix; determinism is immediate because `process` is a pure function of
its input list. -/
theorem c3_group_selection (p : EntryProcessor) (entries : List Entry) :
    ((buildGroups p entries).map Prod.fst).Nodup
    ∧ process p entries = (buildGroups p entries).map groupString
    ∧ ∀ g ∈ buildGroups p entries, ∃ e, e ∈ g.2
        ∧ (∀ x ∈ g.2, Version.lt e.version x.version = false)
        ∧ groupString g = e.string g.1.2.2 := by
  refine ⟨buildGroups_keys_nodup p entries, rfl, ?_⟩
  intro g hg
  obtain ⟨k, rel⟩ := g
  cases rel with
  | nil => exact absurd rfl (buildGroups_values_ne_nil p entries (k, []) hg)
  | cons e rest =>
    refine ⟨pickMax e rest, pickMax_mem rest e, ?_, rfl⟩
    intro x hx
    rcases List.mem_cons.mp hx with rfl | hx2
    · exact pickMax_not_lt_base rest _ _ (Version.lt_irrefl _)
    · exact pickMax_not_lt_mem rest e x hx2

/-- C3 witness: the selection property evaluated at a concrete input. -/
theorem c3_witness : ((buildGroups pPlain [eTieA]).map Prod.fst).Nodup :=
  (c3_group_selection pPlain [eTieA]).1

/-- C4: entries with version strictly below min_version, and (when a
max_version is set) entries with version at or above it, contribute
nothing: dropping them from the input leaves the output of `process`
unchanged (inclusive lower bound, exclusive upper bound). -/
theorem c4_version_bounds (p : EntryProcessor) (entries : List Entry) :
    process p entries
        = process p (entries.filter (fun e => !Version.lt e.version p.min_version))
    ∧ process p entries
        = process p (entries.filter (fun e =>
            match p.max_version with
            | some mx => Version.lt e.version mx
            | none => true)) := by
  constructor
  · have hskip : ∀ gs e, (fun e => !Version.lt e.version p.min_version) e = false →
        processEntry p gs e = gs := by
      intro gs e hkeep
      apply processEntry_skip_min
      simpa using hkeep
    unfold process buildGroups
    rw [foldl_processEntry_filter p _ hskip]
  · have hskip : ∀ gs e, (fun e =>
          match p.max_version with
          | some mx => Version.lt e.version mx
          | none => true) e = false →
        processEntry p gs e = gs := by
      intro gs e hkeep
      simp only at hkeep
      apply processEntry_skip_max
      cases hmx : p.max_version with
      | none =>
        rw [hmx] at hkeep
        simp at hkeep
      | some mx =>
        rw [hmx] at hkeep
        have hkeep2 : Version.lt e.version mx = false := hkeep
        simp [maxRejects, hmx, hkeep2]
    unfold process buildGroups
    rw [foldl_processEntry_filter p _ hskip]

/-- C5: when include_pre_releases is false, every pre-release entry is
rejected, so dropping the pre-release entries from the input leaves the
output of `process` unchanged. -/
theorem c5_prereleases_filtered (p : EntryProcessor) (entries : List Entry)
    (h : p.include_pre_releases = false) :
    process p entries = process p (entries.filter (fun e => !e.version.isPrerelease)) := by
  have hskip : ∀ gs e, (fun e => !e.version.isPrerelease) e = false →
      processEntry p gs e = gs := by
    intro gs e hkeep
    apply processEntry_skip_pre
    simp only at hkeep
    simp only [h, Bool.not_false, Bool.true_and]
    simpa using hkeep
  unfold process buildGroups
  rw [foldl_processEntry_filter p _ hskip]

/-- C5 witness: the pre-release entry 3.13.0rc1 is dropped without
changing the output. -/
theorem c5_witness :
    process pPlain [rc1Entry]
      = process pPlain (([rc1Entry] : List Entry).filter (fun e => !e.version.isPrerelease)) :=
  c5_prereleases_filtered pPlain [rc1Entry] rfl

/-- C6: the CPython renderer returns the raw version string with the
suffix appended for a final release, and "{major}.{minor}{suffix}-dev"
for a pre-release; the entry built from the record with version
"3.13.0rc1" renders with empty suffix as "3.13-dev". -/
theorem c6_cpython_render (e : Entry) (sfx : String) (h : e.impl = Impl.cpython) :
    (e.version.isPrerelease = false → e.string sfx = e.rawVersion ++ sfx)
    ∧ (e.version.isPrerelease = true →
        e.string sfx
          = toString e.version.major ++ "." ++ toString e.version.minor ++ sfx ++ "-dev")
    ∧ (mkEntry Impl.cpython rc1Record = Except.ok rc1Entry
        ∧ rc1Entry.string "" = "3.13-dev") := by
  refine ⟨?_, ?_, rfl, rfl⟩
  · intro hp
    simp only [Entry.string, h]
    rw [if_neg (by simp [hp])]
  · intro hp
    simp only [Entry.string, h]
    rw [if_pos hp]
    simp [simpleVersion, hp]

/-- C6 witness: the renderer evaluated at the 3.13.0rc1 entry. -/
theorem c6_witness : rc1Entry.string "" = "3.13-dev" := by
  rw [(c6_cpython_render rc1Entry "" rfl).2.1 rfl]
  rfl

/-- C7: an unknown platform name (such as "solaris") normalizes to
absence; a file bearing one is excluded by the OS filter whenever a
concrete target OS is set, and retained whenever no target OS is set. -/
theorem c7_unknown_os (p : EntryProcessor) (files : List VFile) (f : VFile)
    (h : getOs f.platform = none) :
    getOs "solaris" = none
    ∧ (∀ os, p.target_os = some os → f ∉ filterByOs p.target_os files)
    ∧ (p.target_os = none → filterByOs p.target_os files = files) := by
  refine ⟨rfl, ?_, ?_⟩
  · intro os hos hmem
    rw [hos] at hmem
    simp only [filterByOs] at hmem
    have h2 := (List.mem_filter.mp hmem).2
    rw [h] at h2
    simp at h2
  · intro h0
    rw [h0]
    rfl

/-- C7 witness: the solaris file is dropped under a Windows target. -/
theorem c7_witness : fSol ∉ filterByOs pWin.target_os [fSol] :=
  (c7_unknown_os pWin [fSol] fSol rfl).2.1 OperatingSystem.WINDOWS rfl

/-- C8: `fetch_versions` fails (necessarily with the unsupported-
implementation error, the only failure of this loop) exactly when some
requested name has no entry in KNOWN_IMPLEMENTATIONS, i.e. is neither
"cpython" nor "pypy". -/
theorem c8_unsupported_implementation (proc : EntryProcessor)
    (implementations : List String) (entriesFor : String → List Entry) :
    ((∃ msg, fetchVersions proc implementations entriesFor = Except.error msg)
      ↔ ∃ i ∈ implementations, KNOWN_IMPLEMENTATIONS.lookup i = none)
    ∧ ∀ i : String, KNOWN_IMPLEMENTATIONS.lookup i = none ↔ (i ≠ "cpython" ∧ i ≠ "pypy") := by
  constructor
  · exact fetchVersionsGo_error_iff proc entriesFor implementations []
  · intro i
    by_cases h1 : i = "cpython"
    · subst h1
      simp [KNOWN_IMPLEMENTATIONS, List.lookup]
    · by_cases h2 : i = "pypy"
      · subst h2
        simp [KNOWN_IMPLEMENTATIONS, List.lookup]
      · have hb1 : (i == "cpython") = false := beq_eq_false_iff_ne.mpr h1
        have hb2 : (i == "pypy") = false := beq_eq_false_iff_ne.mpr h2
        simp [KNOWN_IMPLEMENTATIONS, List.lookup, hb1, hb2, h1, h2]

/-- C9: a pair (runner, version) appears in the matrix facility's
exclude list exactly when the version occurs in some runner's list and
is absent from that runner's own list. -/
theorem c9_exclude_iff (runners : List (String × List String))
    (r : String) (vl : List String) (v : String)
    (hnd : (runners.map Prod.fst).Nodup) (hr : (r, vl) ∈ runners) :
    (r, v) ∈ matrixExclude runners ↔ ((∃ q ∈ runners, v ∈ q.2) ∧ v ∉ vl) := by
  unfold matrixExclude
  rw [List.mem_flatMap]
  constructor
  · rintro ⟨v2, hv2, hmem⟩
    rw [List.mem_filterMap] at hmem
    obtain ⟨⟨r2, vl2⟩, hrv2, heq⟩ := hmem
    by_cases hc : vl2.contains v2 = true
    · rw [if_pos hc] at heq
      exact absurd heq (by simp)
    · rw [if_neg hc] at heq
      have hinj := Option.some.inj heq
      have hre : r2 = r := congrArg Prod.fst hinj
      have hve : v2 = v := congrArg Prod.snd hinj
      subst hre
      subst hve
      have hvl : vl2 = vl := nodup_keys_unique hnd hrv2 hr
      subst hvl
      constructor
      · unfold allVersions at hv2
        rw [List.mem_dedup, List.mem_flatMap] at hv2
        exact hv2
      · intro hvv
        exact hc (by simpa [List.contains, List.elem_iff] using hvv)
  · rintro ⟨⟨q, hq, hvq⟩, hnv⟩
    refine ⟨v, ?_, ?_⟩
    · unfold allVersions
      rw [List.mem_dedup, List.mem_flatMap]
      exact ⟨q, hq, hvq⟩
    · rw [List.mem_filterMap]
      refine ⟨(r, vl), hr, ?_⟩
      rw [if_neg ?_]
      intro hc
      exact hnv (by simpa [List.contains, List.elem_iff] using hc)

/-- C9 witness: "3.10" is in the union but not in the windows runner's
list, so ("windows", "3.10") is excluded. -/
theorem c9_witness : ("windows", "3.10") ∈ matrixExclude runnersW :=
  (c9_exclude_iff runnersW "windows" ["3.9"] "3.10" (by decide) (by decide)).mpr
    ⟨⟨("ubuntu", ["3.9", "3.10"]), by decide, by decide⟩, by decide⟩

/-- C10: when the first registered entry of a group is not strictly below
any other registered entry (in particular when all of them share the
equal maximal version), the Python max keeps it, so the earliest entry
in input order wins; the distinct raw strings "3.12.4" and "3.12.4.0"
parse to versions that compare equal, and swapping the two entries in
the input swaps the rendered output string. -/
theorem c10_tie_first_input_wins :
    (∀ (e : Entry) (rest : List Entry),
        (∀ x ∈ rest, Version.lt e.version x.version = false) →
        pickMax e rest = e)
    ∧ parseVersion "3.12.4" = some eTieA.version
    ∧ parseVersion "3.12.4.0" = some eTieB.version
    ∧ eTieA.rawVersion ≠ eTieB.rawVersion
    ∧ Version.lt eTieA.version eTieB.version = false
    ∧ Version.lt eTieB.version eTieA.version = false
    ∧ process pPlain [eTieA, eTieB] = ["3.12.4"]
    ∧ process pPlain [eTieB, eTieA] = ["3.12.4.0"] := by
  refine ⟨?_, rfl, rfl, by decide, rfl, rfl, rfl, rfl⟩
  intro e rest h
  induction rest with
  | nil => rfl
  | cons r rs ih =>
    rw [pickMax_cons, if_neg (by simp [h r (List.mem_cons_self r rs)])]
    exact ih (fun x hx => h x (List.mem_cons_of_mem _ hx))

/-- C10 witness: with the tied pair, the earlier entry is selected. -/
theorem c10_witness : pickMax eTieA [eTieB] = eTieA :=
  c10_tie_first_input_wins.1 eTieA [eTieB] (by decide)

end PVM
